import Mathlib

/-
Verification of the CAN bus tester core (src/app/main.py, src/app/log_manager.py)
via a shallow embedding in Lean 4.  Machine floats from the Python source are
modelled as exact rationals; dictionaries keyed by strings are modelled as
association lists or key lists; each worker loop is modelled as a pure function
from its inputs (including the sampled stop-signal and per-tick success flags)
to the trace of events it emits.
-/

namespace CanBus

/-! ## Signals (cantools signal objects as seen by SignalChaserManager) -/

/-- A DBC signal as accessed by the chaser: declared minimum / maximum /
initial (may be absent), the enumerated choice raw values (dict keys of
`signal.choices`, empty list when there are none), and the bit length
(`getattr(signal, "length", None)`). -/
structure Signal where
  name : String
  minimum : Option ℚ
  maximum : Option ℚ
  initial : Option ℚ
  choices : List ℚ
  length : Option Nat
deriving Repr, DecidableEq

/-- Ascending sort of the enumerated choice values, mirroring
`keys.sort(key=lambda item: float(getattr(item, "value", item)))`. -/
def sortedChoices (cs : List ℚ) : List ℚ :=
  List.insertionSort (· ≤ ·) cs

/-- `SignalChaserManager._min_value`: declared minimum, else declared initial,
else the lowest enumerated choice, else 0. -/
def SignalChaserManager.min_value (s : Signal) : ℚ :=
  match s.minimum with
  | some m => m
  | none =>
    match s.initial with
    | some i => i
    | none =>
      if s.choices.isEmpty then 0
      else (sortedChoices s.choices).headD 0

/-- `SignalChaserManager._max_value`: declared maximum, else the highest
enumerated choice, else declared initial, else `2^length - 1` when the bit
length is a positive integer, else 1. -/
def SignalChaserManager.max_value (s : Signal) : ℚ :=
  match s.maximum with
  | some m => m
  | none =>
    if ¬ s.choices.isEmpty then (sortedChoices s.choices).getLastD 1
    else
      match s.initial with
      | some i => i
      | none =>
        match s.length with
        | some l => if 0 < l then ((2 ^ l : ℕ) : ℚ) - 1 else 1
        | none => 1

/-! ### Facts about the sorted choice list -/

theorem sortedChoices_perm (cs : List ℚ) : (sortedChoices cs).Perm cs :=
  List.perm_insertionSort (· ≤ ·) cs

theorem sortedChoices_sorted (cs : List ℚ) :
    (sortedChoices cs).Sorted (· ≤ ·) :=
  List.sorted_insertionSort (· ≤ ·) cs

theorem mem_sortedChoices {cs : List ℚ} {a : ℚ} :
    a ∈ sortedChoices cs ↔ a ∈ cs :=
  (sortedChoices_perm cs).mem_iff

theorem headD_le_of_sorted {l : List ℚ} (hs : l.Sorted (· ≤ ·)) {a : ℚ}
    (ha : a ∈ l) (d : ℚ) : l.headD d ≤ a := by
  cases l with
  | nil => cases ha
  | cons x xs =>
    rcases List.mem_cons.mp ha with h | h
    · simp [h]
    · exact (List.sorted_cons.mp hs).1 a h

theorem le_getLastD_of_sorted {l : List ℚ} (hs : l.Sorted (· ≤ ·)) {a : ℚ}
    (ha : a ∈ l) (d : ℚ) : a ≤ l.getLastD d := by
  induction l generalizing a with
  | nil => cases ha
  | cons x xs ih =>
    rcases List.sorted_cons.mp hs with ⟨hx, hxs⟩
    cases xs with
    | nil =>
      rcases List.mem_cons.mp ha with h | h
      · simp [h]
      · cases h
    | cons y ys =>
      have hstep : ∀ b, b ∈ y :: ys → b ≤ (x :: y :: ys).getLastD d := by
        intro b hb
        have := ih hxs hb
        simpa [List.getLastD_cons] using this
      rcases List.mem_cons.mp ha with h | h
      · subst h
        exact (hx y (List.mem_cons_self y ys)).trans
          (hstep y (List.mem_cons_self y ys))
      · exact hstep a h

theorem headD_mem {l : List ℚ} (h : l ≠ []) (d : ℚ) : l.headD d ∈ l := by
  cases l with
  | nil => exact absurd rfl h
  | cons x xs => simp

theorem getLastD_mem {l : List ℚ} (h : l ≠ []) (d : ℚ) : l.getLastD d ∈ l := by
  induction l with
  | nil => exact absurd rfl h
  | cons x xs ih =>
    cases xs with
    | nil => simp
    | cons y ys =>
      have := ih (by simp)
      rw [List.getLastD_cons]
      exact List.mem_cons_of_mem x (ih (by simp))

/-! ## Sweep task (`SignalChaserManager._run_signal_scan`)

The per-tick payload is a Python dict built by first assigning every signal
its floor value (in list order) and then overwriting the selected signal
with its ceiling value.  Dicts are modelled as insertion-ordered association
lists. -/

/-- Python dict assignment `d[k] = v`: overwrite in place when the key is
present, append otherwise. -/
def dictSet (d : List (String × ℚ)) (k : String) (v : ℚ) : List (String × ℚ) :=
  if d.any (fun p => p.1 = k) then
    d.map (fun p => if p.1 = k then (k, v) else p)
  else d ++ [(k, v)]

/-- Python dict lookup `d[k]` (first match in insertion order). -/
def dictGet : List (String × ℚ) → String → Option ℚ
  | [], _ => Option.none
  | p :: rest, k => if p.1 = k then some p.2 else dictGet rest k

/-- The payload built on one tick of `_run_signal_scan`:
every signal is set to its floor value, then the signal at the selected
index is overwritten with its ceiling value. -/
def buildSweepPayload (signals : List Signal) (index : Nat) : List (String × ℚ) :=
  let base := signals.foldl
    (fun d s => dictSet d s.name (SignalChaserManager.min_value s)) []
  match signals.get? index with
  | some cur => dictSet base cur.name (SignalChaserManager.max_value cur)
  | none => base

/-- The selected index of the sweep loop at tick `t`: it starts at 0 and is
advanced by `index = (index + 1) % signal_count` after every tick. -/
def sweepSelectedIndex (n : Nat) : Nat → Nat
  | 0 => 0
  | t + 1 => (sweepSelectedIndex n t + 1) % n

theorem sweepSelectedIndex_eq_mod {n : Nat} (t : Nat) :
    sweepSelectedIndex n t = t % n := by
  induction t with
  | zero => simp [sweepSelectedIndex]
  | succ t ih =>
    simp only [sweepSelectedIndex, ih]
    exact Nat.mod_add_mod t n 1

theorem dictSet_fresh {d : List (String × ℚ)} {k : String}
    (h : ∀ p ∈ d, p.1 ≠ k) (v : ℚ) : dictSet d k v = d ++ [(k, v)] := by
  have : d.any (fun p => p.1 = k) = false := by
    simp only [List.any_eq_false, decide_eq_true_eq]
    exact fun p hp => h p hp
  simp [dictSet, this]

theorem foldl_dictSet_fresh (f : Signal → ℚ) :
    ∀ (sigs : List Signal) (acc : List (String × ℚ)),
      (sigs.map Signal.name).Nodup →
      (∀ p ∈ acc, ∀ s ∈ sigs, p.1 ≠ s.name) →
      sigs.foldl (fun d s => dictSet d s.name (f s)) acc
        = acc ++ sigs.map (fun s => (s.name, f s)) := by
  intro sigs
  induction sigs with
  | nil => intro acc _ _; simp
  | cons x xs ih =>
    intro acc hnd hacc
    have hx : ∀ p ∈ acc, p.1 ≠ x.name :=
      fun p hp => hacc p hp x (List.mem_cons_self x xs)
    have hnd' : (xs.map Signal.name).Nodup := (List.nodup_cons.mp hnd).2
    have hxnot : x.name ∉ xs.map Signal.name := (List.nodup_cons.mp hnd).1
    simp only [List.foldl_cons, dictSet_fresh hx]
    rw [ih (acc ++ [(x.name, f x)]) hnd']
    · simp
    · intro p hp s hs
      rcases List.mem_append.mp hp with h | h
      · exact hacc p h s (List.mem_cons_of_mem x hs)
      · simp only [List.mem_singleton] at h
        subst h
        intro hcontra
        simp only at hcontra
        exact hxnot (hcontra ▸ List.mem_map_of_mem Signal.name hs)

theorem dictGet_map_name (g : Signal → ℚ) :
    ∀ (sigs : List Signal), (sigs.map Signal.name).Nodup →
      ∀ (j : Fin sigs.length),
        dictGet (sigs.map (fun s => (s.name, g s))) (sigs.get j).name
          = some (g (sigs.get j)) := by
  intro sigs
  induction sigs with
  | nil => intro _ j; exact absurd j.isLt (by simp)
  | cons x xs ih =>
    intro hnd j
    rcases List.nodup_cons.mp hnd with ⟨hxnot, hnd'⟩
    cases j using Fin.cases with
    | zero => simp [dictGet]
    | succ i =>
      have hmem : xs.get i ∈ xs := xs.get_mem i.1 i.isLt
      have hne : x.name ≠ (xs.get i).name := by
        intro hcontra
        exact hxnot (hcontra ▸ List.mem_map_of_mem Signal.name hmem)
      have hih := ih hnd' i
      simp only [List.get_eq_getElem] at hne hih ⊢
      simp [dictGet, Fin.val_succ, List.getElem_cons_succ, hne, hih]

/-- The payload of one tick maps the name of the signal at position `j` to its
ceiling value when `j` is the selected index and to its floor value
otherwise. -/
theorem buildSweepPayload_spec (signals : List Signal)
    (hnd : (signals.map Signal.name).Nodup) (idx j : Fin signals.length) :
    dictGet (buildSweepPayload signals idx.1) (signals.get j).name
      = some (if j = idx then SignalChaserManager.max_value (signals.get idx)
              else SignalChaserManager.min_value (signals.get j)) := by
  have hbase : signals.foldl
      (fun d s => dictSet d s.name (SignalChaserManager.min_value s)) []
        = signals.map (fun s => (s.name, SignalChaserManager.min_value s)) := by
    simpa using foldl_dictSet_fresh SignalChaserManager.min_value signals [] hnd
      (by intro p hp; cases hp)
  have hget : signals.get? idx.1 = some (signals.get idx) := by
    rw [List.get?_eq_get idx.isLt]
  set cur := signals.get idx with hcur
  have hcurmem : cur ∈ signals := signals.get_mem idx.1 idx.isLt
  have hany : (signals.map
      (fun s => (s.name, SignalChaserManager.min_value s))).any
        (fun p => p.1 = cur.name) = true := by
    simp only [List.any_eq_true]
    exact ⟨(cur.name, SignalChaserManager.min_value cur),
      List.mem_map_of_mem _ hcurmem, by simp⟩
  have hset : dictSet (signals.map (fun s => (s.name, SignalChaserManager.min_value s)))
      cur.name (SignalChaserManager.max_value cur)
        = signals.map (fun s => (s.name,
            if s.name = cur.name then SignalChaserManager.max_value cur
            else SignalChaserManager.min_value s)) := by
    rw [dictSet, if_pos hany, List.map_map]
    refine List.map_congr_left ?hcong
    intro s hs
    by_cases h : s.name = cur.name
    · simp [Function.comp, h]
    · simp [Function.comp, h]
  have hmain : dictGet (buildSweepPayload signals idx.1) (signals.get j).name
      = some (if (signals.get j).name = cur.name then SignalChaserManager.max_value cur
              else SignalChaserManager.min_value (signals.get j)) := by
    simp only [buildSweepPayload, hbase, hget, hset]
    exact dictGet_map_name
      (fun s => if s.name = cur.name then SignalChaserManager.max_value cur
        else SignalChaserManager.min_value s) signals hnd j
  rw [hmain]
  by_cases hj : j = idx
  · subst hj
    simp [hcur]
  · have hnames : (signals.get j).name ≠ cur.name := by
      intro hcontra
      apply hj
      have hj2 : (signals.map Signal.name).get ⟨j.1, by simpa using j.isLt⟩
          = (signals.map Signal.name).get ⟨idx.1, by simpa using idx.isLt⟩ := by
        simpa [List.getElem_map] using hcontra
      have := (List.Nodup.get_inj_iff hnd).mp hj2
      exact Fin.ext (by simpa using congrArg Fin.val this)
    simp only [List.get_eq_getElem] at hnames
    simp [hnames, hj]

theorem mod_window_exists {n : Nat} (hn : 0 < n) (t0 j : Nat) (hj : j < n) :
    ∃ i, i < n ∧ (t0 + i) % n = j := by
  have hr : t0 % n < n := Nat.mod_lt t0 hn
  refine ⟨(j + n - t0 % n) % n, Nat.mod_lt _ hn, ?_⟩
  have h1 : (t0 + (j + n - t0 % n) % n) % n = (t0 + (j + n - t0 % n)) % n := by
    conv_lhs => rw [Nat.add_mod]
    conv_rhs => rw [Nat.add_mod]
    rw [Nat.mod_mod_of_dvd _ dvd_rfl]
  have hle : t0 % n ≤ t0 := Nat.mod_le t0 n
  have h2 : t0 + (j + n - t0 % n) = j + n * (t0 / n + 1) := by
    have hdm := Nat.div_add_mod t0 n
    have hmul : n * (t0 / n + 1) = n * (t0 / n) + n := by ring
    omega
  rw [h1, h2, Nat.add_mul_mod_self_left, Nat.mod_eq_of_lt hj]

theorem mod_window_unique {n : Nat} (t0 i1 i2 : Nat) (h1 : i1 < n) (h2 : i2 < n)
    (he : (t0 + i1) % n = (t0 + i2) % n) : i1 = i2 := by
  have hmod : i1 % n = i2 % n := Nat.ModEq.add_left_cancel' t0 he
  rwa [Nat.mod_eq_of_lt h1, Nat.mod_eq_of_lt h2] at hmod

theorem sweep_cycle_order {n : Nat} (hn : 0 < n) (k : Nat) :
    (List.range n).map (fun i => sweepSelectedIndex n (k * n + i))
      = List.range n := by
  have hpt : ∀ i ∈ List.range n, sweepSelectedIndex n (k * n + i) = i := by
    intro i hi
    rw [sweepSelectedIndex_eq_mod, Nat.mul_comm k n, Nat.mul_add_mod,
      Nat.mod_eq_of_lt (List.mem_range.mp hi)]
  calc (List.range n).map (fun i => sweepSelectedIndex n (k * n + i))
      = (List.range n).map id := List.map_congr_left hpt
    _ = List.range n := List.map_id _

/-- C1: for every sweep task over a non-empty ordered list of signals with
distinct names, the payload of every tick assigns the ceiling value to the
signal at the selected index and the floor value to every other signal; the
selected index is `t % N`, advances circularly by one after each tick, over
any `N` consecutive ticks each index is selected exactly once, and each
aligned cycle of `N` ticks selects the indices `0, …, N-1` in the original
list order. -/
theorem sweep_invariant (signals : List Signal)
    (hne : signals ≠ []) (hnd : (signals.map Signal.name).Nodup) :
    (∀ t, sweepSelectedIndex signals.length t = t % signals.length) ∧
    (∀ t, sweepSelectedIndex signals.length (t + 1)
        = (sweepSelectedIndex signals.length t + 1) % signals.length) ∧
    (∀ t (j : Fin signals.length),
        dictGet (buildSweepPayload signals (sweepSelectedIndex signals.length t))
            (signals.get j).name
          = some (if j.1 = t % signals.length
              then SignalChaserManager.max_value (signals.get j)
              else SignalChaserManager.min_value (signals.get j))) ∧
    (∀ t0 j, j < signals.length →
        ∃ i, i < signals.length ∧ sweepSelectedIndex signals.length (t0 + i) = j) ∧
    (∀ t0 i1 i2, i1 < signals.length → i2 < signals.length →
        sweepSelectedIndex signals.length (t0 + i1)
          = sweepSelectedIndex signals.length (t0 + i2) → i1 = i2) ∧
    (∀ k, (List.range signals.length).map
        (fun i => sweepSelectedIndex signals.length (k * signals.length + i))
      = List.range signals.length) := by
  have hn : 0 < signals.length := List.length_pos.mpr hne
  refine ⟨fun t => sweepSelectedIndex_eq_mod t, fun t => rfl, ?_, ?_, ?_, ?_⟩
  · intro t j
    have hlt : t % signals.length < signals.length := Nat.mod_lt t hn
    have := buildSweepPayload_spec signals hnd ⟨t % signals.length, hlt⟩ j
    rw [sweepSelectedIndex_eq_mod t]
    have hiff : (j = (⟨t % signals.length, hlt⟩ : Fin signals.length))
        ↔ j.1 = t % signals.length := by
      constructor
      · intro h; exact congrArg Fin.val h
      · intro h; exact Fin.ext h
    by_cases hc : j.1 = t % signals.length
    · have hj : j = (⟨t % signals.length, hlt⟩ : Fin signals.length) := Fin.ext hc
      rw [this, if_pos hj, if_pos hc, hj]
    · have hj : j ≠ (⟨t % signals.length, hlt⟩ : Fin signals.length) :=
        fun h => hc (hiff.mp h)
      rw [this, if_neg hj, if_neg hc]
  · intro t0 j hj
    obtain ⟨i, hi, hmod⟩ := mod_window_exists hn t0 j hj
    exact ⟨i, hi, by rw [sweepSelectedIndex_eq_mod]; exact hmod⟩
  · intro t0 i1 i2 h1 h2 he
    rw [sweepSelectedIndex_eq_mod, sweepSelectedIndex_eq_mod] at he
    exact mod_window_unique t0 i1 i2 h1 h2 he
  · exact sweep_cycle_order hn

/-- Concrete signals used to instantiate universally quantified theorems. -/
def sigA : Signal :=
  { name := "A", minimum := some 0, maximum := some 10,
    initial := Option.none, choices := [], length := some 8 }

def sigB : Signal :=
  { name := "B", minimum := Option.none, maximum := Option.none,
    initial := some 3, choices := [], length := some 4 }

/-- C1 witness: the sweep invariant instantiated on the two-signal list
`[sigA, sigB]`, at ticks 0 and 1. -/
theorem sweep_invariant_witness :
    dictGet (buildSweepPayload [sigA, sigB] (sweepSelectedIndex 2 0)) "A"
        = some 10 ∧
    dictGet (buildSweepPayload [sigA, sigB] (sweepSelectedIndex 2 1)) "A"
        = some 0 := by
  have h := sweep_invariant [sigA, sigB] (by simp) (by simp [sigA, sigB])
  have h0 := h.2.2.1 0 ⟨0, by simp⟩
  have h1 := h.2.2.1 1 ⟨0, by simp⟩
  constructor
  · simpa [sigA, sigB, SignalChaserManager.max_value] using h0
  · simpa [sigA, sigB, SignalChaserManager.min_value] using h1

/-! ## RecordingManager (`src/app/log_manager.py`)

The manager holds at most one active in-memory `Recording`; `stop` persists a
frozen document carrying `event_count` and `ended_at` and clears the active
slot.  Event payloads are an arbitrary type `E` (the code copies dicts, which
are opaque here).  Wall-clock reads and the `strftime` label formatter are
passed in as parameters. -/

/-- Python `str.strip()` whitespace set (ASCII part used by labels). -/
def isPySpace (c : Char) : Bool :=
  c == ' ' || c == '\t' || c == '\n' || c == '\r' || c == '\x0b' || c == '\x0c'

/-- Python `str.strip()`: removes leading and trailing whitespace. -/
def pythonStrip (s : String) : String :=
  String.mk (((s.toList.dropWhile isPySpace).reverse.dropWhile isPySpace).reverse)

/-- In-memory representation of an active recording (class `Recording`). -/
structure Recording (E : Type) where
  id : String
  name : String
  started_at : ℚ
  events : List E
deriving Repr, DecidableEq

/-- The manager state: the single active-recording slot. -/
structure RecState (E : Type) where
  active : Option (Recording E)
deriving Repr, DecidableEq

/-- Errors raised by the manager (`RuntimeError` messages in the code). -/
inductive RecError where
  | alreadyActive
  | noneActive
deriving Repr, DecidableEq

/-- The summary returned by `start` (`to_dict(include_events=False)`). -/
structure RecInfo where
  id : String
  name : String
  started_at : ℚ
deriving Repr, DecidableEq

/-- The frozen document persisted by `stop`. -/
structure RecordDoc (E : Type) where
  id : String
  name : String
  started_at : ℚ
  events : List E
  ended_at : ℚ
  event_count : Nat
deriving Repr, DecidableEq

/-- `RecordingManager.start(name)`: fails when a recording is already active;
otherwise installs a fresh recording whose label is the stripped name, or the
formatted start time when the stripped name is empty. -/
def RecordingManager.start {E : Type} (fmt : ℚ → String) (now : ℚ)
    (newId : String) (name : Option String) (s : RecState E) :
    RecState E × Except RecError RecInfo :=
  match s.active with
  | some _ => (s, Except.error RecError.alreadyActive)
  | none =>
    let stripped := pythonStrip (name.getD "")
    let label := if stripped = "" then fmt now else stripped
    (⟨some ⟨newId, label, now, []⟩⟩, Except.ok ⟨newId, label, now⟩)

/-- `RecordingManager.stop()`: fails when no recording is active; otherwise
freezes the document with `event_count = len(events)` and `ended_at`, and
clears the active slot. -/
def RecordingManager.stop {E : Type} (now : ℚ) (s : RecState E) :
    RecState E × Except RecError (RecordDoc E) :=
  match s.active with
  | none => (s, Except.error RecError.noneActive)
  | some r =>
    (⟨Option.none⟩, Except.ok ⟨r.id, r.name, r.started_at, r.events, now, r.events.length⟩)

/-- `RecordingManager.append_event(event)`: appends a copy of the event to the
active recording; silent no-op when none is active. -/
def RecordingManager.append_event {E : Type} (e : E) (s : RecState E) : RecState E :=
  match s.active with
  | none => s
  | some r => ⟨some { r with events := r.events ++ [e] }⟩

/-- A full `start → appends → stop` session on an initially inactive store. -/
def runRecordingSession {E : Type} (fmt : ℚ → String) (t0 t1 : ℚ)
    (newId : String) (name : Option String) (es : List E) :
    RecState E × Except RecError (RecordDoc E) :=
  let s1 := (RecordingManager.start fmt t0 newId name ⟨Option.none⟩).1
  let s2 := es.foldl (fun s e => RecordingManager.append_event e s) s1
  RecordingManager.stop t1 s2

theorem foldl_append_event {E : Type} (es : List E) :
    ∀ r : Recording E,
      es.foldl (fun s e => RecordingManager.append_event e s) ⟨some r⟩
        = ⟨some { r with events := r.events ++ es }⟩ := by
  induction es with
  | nil => intro r; simp
  | cons e es ih =>
    intro r
    rw [List.foldl_cons]
    have hstep : RecordingManager.append_event e (⟨some r⟩ : RecState E)
        = ⟨some { r with events := r.events ++ [e] }⟩ := rfl
    rw [hstep, ih { r with events := r.events ++ [e] }]
    simp

/-- C3: a `start → N appends → stop` session persists a document whose
`event_count` equals `N` and whose events are exactly the appended events in
append order, and clears the active slot. -/
theorem recording_round_trip {E : Type} (fmt : ℚ → String) (t0 t1 : ℚ)
    (newId : String) (name : Option String) (es : List E) :
    (∃ doc : RecordDoc E,
        (runRecordingSession fmt t0 t1 newId name es).2 = Except.ok doc ∧
        doc.event_count = es.length ∧
        doc.events = es) ∧
    (runRecordingSession fmt t0 t1 newId name es).1.active = Option.none := by
  simp only [runRecordingSession, RecordingManager.start]
  rw [foldl_append_event]
  simp [RecordingManager.stop]

/-- C6: `start` fails with `AlreadyActive` exactly when a recording is open
and then leaves the state unchanged; `stop` fails with `NoneActive` exactly
when none is open and then leaves the state unchanged; `append_event` with no
open recording is a silent no-op; a name that strips to the empty string is
replaced by the formatted start-time string. -/
theorem recording_raises_iff {E : Type} (fmt : ℚ → String) (now : ℚ)
    (newId : String) (name : Option String) :
    (∀ s : RecState E,
        ((RecordingManager.start fmt now newId name s).2
            = Except.error RecError.alreadyActive ↔ s.active ≠ Option.none)) ∧
    (∀ s : RecState E, s.active ≠ Option.none →
        RecordingManager.start fmt now newId name s
          = (s, Except.error RecError.alreadyActive)) ∧
    (∀ s : RecState E,
        ((RecordingManager.stop now s).2 = Except.error RecError.noneActive
          ↔ s.active = Option.none)) ∧
    (∀ s : RecState E, s.active = Option.none →
        RecordingManager.stop now s = (s, Except.error RecError.noneActive)) ∧
    (∀ (e : E) (s : RecState E), s.active = Option.none →
        RecordingManager.append_event e s = s) ∧
    (pythonStrip (name.getD "") = "" →
        RecordingManager.start fmt now newId name (⟨Option.none⟩ : RecState E)
          = (⟨some ⟨newId, fmt now, now, []⟩⟩, Except.ok ⟨newId, fmt now, now⟩)) := by
  refine ⟨?_, ?_, ?_, ?_, ?_, ?_⟩
  · intro s
    cases hs : s.active with
    | none => simp [RecordingManager.start, hs]
    | some r => simp [RecordingManager.start, hs]
  · intro s hs
    cases h : s.active with
    | none => exact absurd h hs
    | some r => simp [RecordingManager.start, h]
  · intro s
    cases hs : s.active with
    | none => simp [RecordingManager.stop, hs]
    | some r => simp [RecordingManager.stop, hs]
  · intro s hs
    have : s = ⟨Option.none⟩ := by cases s; simp_all
    subst this
    simp [RecordingManager.stop]
  · intro e s hs
    have : s = ⟨Option.none⟩ := by cases s; simp_all
    subst this
    simp [RecordingManager.append_event]
  · intro hstrip
    simp [RecordingManager.start, hstrip]

/-- C6 witness: the raises-iff discipline at concrete inputs, including the
whitespace-only label replaced by the formatted start time. -/
theorem recording_raises_iff_witness :
    RecordingManager.start (fun _ => "TS") 0 "id1" (some "  ")
        (⟨Option.none⟩ : RecState ℕ)
      = (⟨some ⟨"id1", "TS", 0, []⟩⟩, Except.ok ⟨"id1", "TS", 0⟩) ∧
    RecordingManager.stop 0 (⟨Option.none⟩ : RecState ℕ)
      = (⟨Option.none⟩, Except.error RecError.noneActive) ∧
    RecordingManager.append_event 5 (⟨Option.none⟩ : RecState ℕ)
      = ⟨Option.none⟩ := by
  have h := recording_raises_iff (E := ℕ) (fun _ => "TS") 0 "id1" (some "  ")
  exact ⟨h.2.2.2.2.2 (by decide), h.2.2.2.1 _ rfl, h.2.2.2.2.1 5 _ rfl⟩

/-! ## Replay decimation (`decode_log`, series post-processing)

After accumulation, any series with more than `max_points = 5000` points is
decimated with `step = max(1, ceil(original_count / max_points))`, keeping
every step-th point (`points[::step]`). -/

/-- The fixed series point cap (`max_points = 5000`). -/
def maxReplayPoints : Nat := 5000

/-- `ceil(a / b)` on naturals (`math.ceil` of the exact quotient). -/
def ceilDivNat (a b : Nat) : Nat := (a + b - 1) / b

/-- Helper for the Python slice `l[::step]`: `k` counts how many elements are
still to be skipped before the next kept element. -/
def everyNthAux {α : Type} (step : Nat) : List α → Nat → List α
  | [], _ => []
  | a :: rest, 0 => a :: everyNthAux step rest (step - 1)
  | _ :: rest, k + 1 => everyNthAux step rest k

/-- Python slice `l[::step]` for `step ≥ 1`: the elements at indices
`0, step, 2*step, …`. -/
def everyNth {α : Type} (step : Nat) (l : List α) : List α :=
  everyNthAux step l 0

/-- The decimated form of one replay series entry. -/
structure DecimatedSeries (α : Type) where
  points : List α
  downsampled : Bool
  original_points : Nat
deriving Repr, DecidableEq

/-- The decimation step of `decode_log`: series longer than the cap keep
every `step`-th point with `step = max(1, ceil(M / cap))`; shorter series are
returned unchanged. -/
def decimateSeries {α : Type} (points : List α) : DecimatedSeries α :=
  let original_count := points.length
  if original_count > maxReplayPoints then
    let step := max 1 (ceilDivNat original_count maxReplayPoints)
    ⟨everyNth step points, true, original_count⟩
  else
    ⟨points, false, original_count⟩

theorem everyNthAux_length {α : Type} {step : Nat} (hs : 0 < step) :
    ∀ (l : List α) (k : Nat), k ≤ step - 1 →
      (everyNthAux step l k).length = (l.length + (step - 1) - k) / step := by
  intro l
  induction l with
  | nil =>
    intro k hk
    simp only [everyNthAux, List.length_nil]
    rw [Nat.div_eq_of_lt (by omega)]
  | cons a rest ih =>
    intro k hk
    cases k with
    | zero =>
      simp only [everyNthAux, List.length_cons]
      rw [ih (step - 1) le_rfl]
      have h1 : rest.length + (step - 1) - (step - 1) = rest.length := by omega
      have h2 : rest.length + 1 + (step - 1) - 0 = rest.length + step := by omega
      rw [h1, h2, Nat.add_div_right _ hs]
    | succ k =>
      simp only [everyNthAux, List.length_cons]
      rw [ih k (by omega)]
      have h3 : rest.length + 1 + (step - 1) - (k + 1)
          = rest.length + (step - 1) - k := by omega
      rw [h3]

theorem everyNthAux_getElem {α : Type} {step : Nat} (hs : 0 < step) :
    ∀ (l : List α) (k i : Nat),
      (everyNthAux step l k)[i]? = l[k + i * step]? := by
  intro l
  induction l with
  | nil => intro k i; simp [everyNthAux]
  | cons a rest ih =>
    intro k i
    cases k with
    | zero =>
      cases i with
      | zero => simp [everyNthAux]
      | succ i =>
        simp only [everyNthAux, List.getElem?_cons_succ]
        rw [ih (step - 1) i]
        have hidx : 0 + (i + 1) * step = (step - 1 + i * step) + 1 := by
          rw [Nat.succ_mul]
          omega
        rw [hidx, List.getElem?_cons_succ]
    | succ k =>
      simp only [everyNthAux, List.getElem?_cons_succ]
      rw [ih k i]
      have hidx : k + 1 + i * step = (k + i * step) + 1 := by omega
      rw [hidx, List.getElem?_cons_succ]

/-- C4: with `M` accumulated points and the fixed cap 5000, a series with
`M > 5000` keeps every `stride`-th point with `stride = ceil(M / 5000)`,
yielding `ceil(M / stride)` points, never more than 5000, marked downsampled
with original count `M`; a series with `M ≤ 5000` is returned unchanged and
not marked downsampled. -/
theorem decimation_spec {α : Type} (points : List α) :
    (points.length > maxReplayPoints →
      (decimateSeries points).downsampled = true ∧
      (decimateSeries points).original_points = points.length ∧
      (decimateSeries points).points.length
        = ceilDivNat points.length (ceilDivNat points.length maxReplayPoints) ∧
      (decimateSeries points).points.length ≤ maxReplayPoints ∧
      (∀ i, ((decimateSeries points).points)[i]?
        = points[i * ceilDivNat points.length maxReplayPoints]?)) ∧
    (points.length ≤ maxReplayPoints →
      decimateSeries points = ⟨points, false, points.length⟩) := by
  constructor
  · intro hM
    set M := points.length with hMdef
    have hMgt : M > 5000 := hM
    have hstride1 : 1 ≤ ceilDivNat M maxReplayPoints := by
      simp only [ceilDivNat, maxReplayPoints]
      omega
    have hmax : max 1 (ceilDivNat M maxReplayPoints)
        = ceilDivNat M maxReplayPoints := Nat.max_eq_right hstride1
    set stride := ceilDivNat M maxReplayPoints with hstrdef
    have hspos : 0 < stride := hstride1
    have hdec : decimateSeries points
        = ⟨everyNth stride points, true, M⟩ := by
      rw [decimateSeries]
      simp only [← hMdef, if_pos hM, hmax, ← hstrdef]
    have hlen : (everyNth stride points).length = ceilDivNat M stride := by
      rw [everyNth, everyNthAux_length hspos points 0 (by omega), ceilDivNat]
      congr 1
      omega
    refine ⟨by rw [hdec], by rw [hdec], by rw [hdec]; exact hlen, ?_, ?_⟩
    · rw [hdec]
      simp only
      rw [hlen, ceilDivNat]
      have hMle : M ≤ stride * 5000 := by
        rw [hstrdef]
        simp only [ceilDivNat, maxReplayPoints]
        omega
      rw [Nat.div_le_iff_le_mul_add_pred hspos]
      simp only [maxReplayPoints]
      have hexp2 : stride * 5000 = 5000 * stride := by ring
      omega
    · intro i
      rw [hdec]
      simp only
      rw [everyNth, everyNthAux_getElem hspos points 0 i, Nat.zero_add]
  · intro hM
    rw [decimateSeries]
    simp [Nat.not_lt.mpr hM]

/-- C4 witness: a 6000-point series is decimated to at most 5000 points and
marked downsampled; a one-point series is returned unchanged. -/
theorem decimation_spec_witness :
    (decimateSeries (List.replicate 6000 (0 : ℕ))).downsampled = true ∧
    (decimateSeries (List.replicate 6000 (0 : ℕ))).points.length ≤ 5000 ∧
    decimateSeries [(0 : ℕ)] = ⟨[0], false, 1⟩ := by
  have hbig := (decimation_spec (List.replicate 6000 (0 : ℕ))).1
    (by simp only [List.length_replicate, maxReplayPoints]; norm_num)
  have hsmall := (decimation_spec [(0 : ℕ)]).2
    (by simp only [List.length_cons, List.length_nil, maxReplayPoints]; norm_num)
  exact ⟨hbig.1, le_trans hbig.2.2.2.1 (by norm_num [maxReplayPoints]),
    by simpa using hsmall⟩

/-! ## Fault-injection worker (`FaultInjectionManager._run_fault_test`)

The worker loops `for i in range(count)`, checking the stop event at the top
of each iteration and again while waiting out the interval; a successful tick
emits one tx transmission event and one progress notification; the `finally`
block removes the task from the registry and then emits the completed
notification.  The stop-event samples and per-tick success are inputs. -/

/-- Events observable through the manager's notifier. -/
inductive FaultEvent where
  | tx (tick : Nat)
  | progress (sent total : Nat)
  | completed
deriving Repr, DecidableEq

def FaultEvent.isTx : FaultEvent → Bool
  | .tx _ => true
  | _ => false

def FaultEvent.isCompleted : FaultEvent → Bool
  | .completed => true
  | _ => false

@[simp]
theorem FaultEvent.isTx_tx (n : Nat) : (FaultEvent.tx n).isTx = true := rfl

@[simp]
theorem FaultEvent.isTx_progress (a b : Nat) :
    (FaultEvent.progress a b).isTx = false := rfl

@[simp]
theorem FaultEvent.isTx_completed : FaultEvent.completed.isTx = false := rfl

@[simp]
theorem FaultEvent.isCompleted_tx (n : Nat) :
    (FaultEvent.tx n).isCompleted = false := rfl

@[simp]
theorem FaultEvent.isCompleted_progress (a b : Nat) :
    (FaultEvent.progress a b).isCompleted = false := rfl

@[simp]
theorem FaultEvent.isCompleted_completed :
    FaultEvent.completed.isCompleted = true := rfl

/-- The events emitted by the `for` loop of `_run_fault_test` starting at
iteration `i` with `r` iterations remaining.  `stopTop i` is the
`stop_event.is_set()` sample at the top of iteration `i`; `stopWait i` is the
result of `stop_event.wait(interval)` at its end; `tickOk i` tells whether
the tick's inject-and-send succeeded (a failure is caught and logged and the
loop continues). -/
def faultLoopEvents (stopTop stopWait tickOk : Nat → Bool) (total : Nat) :
    Nat → Nat → List FaultEvent
  | _, 0 => []
  | i, r + 1 =>
    if stopTop i then []
    else
      (if tickOk i then
          [FaultEvent.tx (i + 1), FaultEvent.progress (i + 1) total]
        else [])
        ++ (if stopWait i then []
            else faultLoopEvents stopTop stopWait tickOk total (i + 1) r)

/-- Result of a complete `_run_fault_test` run: the emitted event trace and
the task registry afterwards (the `finally` block pops the key and then
notifies completion, so `completed` is the last event). -/
structure FaultRunResult where
  events : List FaultEvent
  registry : List String
deriving Repr, DecidableEq

/-- A complete `_run_fault_test` run over a registry of task keys. -/
def runFaultTest (stopTop stopWait tickOk : Nat → Bool) (count : Nat)
    (key : String) (reg : List String) : FaultRunResult :=
  { events := faultLoopEvents stopTop stopWait tickOk count 0 count
      ++ [FaultEvent.completed],
    registry := reg.erase key }

theorem faultLoopEvents_noStop_tx_count (total : Nat) :
    ∀ (r i : Nat),
      ((faultLoopEvents (fun _ => false) (fun _ => false) (fun _ => true)
          total i r).filter (fun e => e.isTx)).length = r := by
  intro r
  induction r with
  | zero => intro i; simp [faultLoopEvents]
  | succ r ih =>
    intro i
    simp [faultLoopEvents, ih (i + 1)]

theorem faultLoopEvents_noStop_no_completed (total : Nat) :
    ∀ (r i : Nat),
      (faultLoopEvents (fun _ => false) (fun _ => false) (fun _ => true)
          total i r).filter (fun e => e.isCompleted) = [] := by
  intro r
  induction r with
  | zero => intro i; simp [faultLoopEvents]
  | succ r ih =>
    intro i
    simp [faultLoopEvents, ih (i + 1)]

/-- C2: a fault task started with `count = n`, with no external stop and no
per-tick error, emits exactly `n` tx transmission events and exactly one
completed notification; the completed notification is the final event (so no
tx event follows it), and the task key is absent from the registry
afterwards. -/
theorem fault_bounded_count (stopTop stopWait tickOk : Nat → Bool)
    (count : Nat) (key : String) (reg : List String)
    (hstopT : ∀ i, stopTop i = false) (hstopW : ∀ i, stopWait i = false)
    (hok : ∀ i, tickOk i = true) (hreg : reg.Nodup) :
    ((runFaultTest stopTop stopWait tickOk count key reg).events.filter
        (fun e => e.isTx)).length = count ∧
    ((runFaultTest stopTop stopWait tickOk count key reg).events.filter
        (fun e => e.isCompleted)).length = 1 ∧
    (runFaultTest stopTop stopWait tickOk count key reg).events.getLast?
      = some FaultEvent.completed ∧
    key ∉ (runFaultTest stopTop stopWait tickOk count key reg).registry := by
  have hT : stopTop = fun _ => false := funext hstopT
  have hW : stopWait = fun _ => false := funext hstopW
  have hK : tickOk = fun _ => true := funext hok
  subst hT hW hK
  refine ⟨?_, ?_, ?_, ?_⟩
  · simp only [runFaultTest, List.filter_append, List.length_append]
    rw [faultLoopEvents_noStop_tx_count count count 0]
    simp
  · simp only [runFaultTest, List.filter_append, List.length_append]
    rw [faultLoopEvents_noStop_no_completed count count 0]
    simp
  · simp only [runFaultTest]
    exact List.getLast?_concat _
  · simp only [runFaultTest]
    intro hmem
    have := List.Nodup.mem_erase_iff hreg |>.mp hmem
    exact this.1 rfl

/-- C2 witness: a three-tick fault run with no stop and no errors. -/
theorem fault_bounded_count_witness :
    ((runFaultTest (fun _ => false) (fun _ => false) (fun _ => true) 3 "M"
        ["M"]).events.filter (fun e => e.isTx)).length = 3 ∧
    "M" ∉ (runFaultTest (fun _ => false) (fun _ => false) (fun _ => true) 3 "M"
        ["M"]).registry := by
  have h := fault_bounded_count (fun _ => false) (fun _ => false)
    (fun _ => true) 3 "M" ["M"] (fun _ => rfl) (fun _ => rfl) (fun _ => rfl)
    (by simp)
  exact ⟨h.1, h.2.2.2⟩

/-! ## DLC-mismatch fault (`FaultInjectionManager._inject_dlc_mismatch`) -/

/-- An encoded frame dict as produced by `DBCManager.encode` and consumed by
the fault injectors. -/
structure EncodedFrame where
  arbitration_id : Nat
  data : List Nat
  is_extended : Bool
  dlc : Nat
  faultType : Option String
  faultInfo : Option String
deriving Repr, DecidableEq

/-- `_inject_dlc_mismatch`: sets the reported DLC to `dlc_value` and pads the
payload with zero bytes on the right or truncates it so its length matches,
with no clamping of `dlc_value` against the schema's declared message
length. -/
def inject_dlc_mismatch (encoded : EncodedFrame) (dlc_value : Nat) :
    EncodedFrame :=
  let actual_len := encoded.data.length
  { encoded with
    dlc := dlc_value,
    data :=
      if dlc_value > actual_len then
        encoded.data ++ List.replicate (dlc_value - actual_len) 0
      else if dlc_value < actual_len then
        encoded.data.take dlc_value
      else encoded.data,
    faultType := some "dlc-mismatch",
    faultInfo := some s!"DLC={dlc_value}, Data length={actual_len}" }

/-- C9: for every target length `d`, the corrupted frame reports DLC `d` and
carries exactly `d` payload bytes: zero-padded on the right when `d` exceeds
the encoded length, truncated when smaller, unchanged when equal.  The
result does not depend on the schema's declared message length: the theorem
holds for every `d` with no bound relating `d` to it. -/
theorem dlc_mismatch_spec (encoded : EncodedFrame) (d : Nat) :
    (inject_dlc_mismatch encoded d).dlc = d ∧
    (inject_dlc_mismatch encoded d).data.length = d ∧
    (encoded.data.length < d →
      (inject_dlc_mismatch encoded d).data
        = encoded.data ++ List.replicate (d - encoded.data.length) 0) ∧
    (d < encoded.data.length →
      (inject_dlc_mismatch encoded d).data = encoded.data.take d) ∧
    (d = encoded.data.length →
      (inject_dlc_mismatch encoded d).data = encoded.data) := by
  refine ⟨rfl, ?_, ?_, ?_, ?_⟩
  · simp only [inject_dlc_mismatch]
    rcases Nat.lt_trichotomy encoded.data.length d with h | h | h
    · rw [if_pos h]
      simp only [List.length_append, List.length_replicate]
      omega
    · rw [if_neg (by omega), if_neg (by omega)]
      omega
    · rw [if_neg (by omega), if_pos h]
      simp only [List.length_take]
      omega
  · intro h
    simp only [inject_dlc_mismatch]
    rw [if_pos h]
  · intro h
    simp only [inject_dlc_mismatch]
    rw [if_neg (by omega), if_pos h]
  · intro h
    simp only [inject_dlc_mismatch]
    rw [if_neg (by omega), if_neg (by omega)]

/-- A concrete encoded frame used to instantiate the DLC-mismatch theorem. -/
def frame3 : EncodedFrame :=
  { arbitration_id := 291, data := [1, 2, 3], is_extended := false,
    dlc := 3, faultType := Option.none, faultInfo := Option.none }

/-- C9 witness: padding, truncation and the unchanged case on a three-byte
frame, with a target length of 5 even though the encoded length is 3. -/
theorem dlc_mismatch_spec_witness :
    (inject_dlc_mismatch frame3 5).dlc = 5 ∧
    (inject_dlc_mismatch frame3 5).data = [1, 2, 3, 0, 0] ∧
    (inject_dlc_mismatch frame3 2).data = [1, 2] ∧
    (inject_dlc_mismatch frame3 3).data = [1, 2, 3] := by
  refine ⟨(dlc_mismatch_spec frame3 5).1, ?_, ?_, ?_⟩
  · have h := (dlc_mismatch_spec frame3 5).2.2.1 (by simp [frame3])
    simpa [frame3] using h
  · have h := (dlc_mismatch_spec frame3 2).2.2.2.1 (by simp [frame3])
    simpa [frame3] using h
  · have h := (dlc_mismatch_spec frame3 3).2.2.2.2 (by simp [frame3])
    simpa [frame3] using h

/-! ## Floor / ceiling fallback chains (`_min_value`, `_max_value`) -/

theorem sortedChoices_ne_nil {cs : List ℚ} (h : cs ≠ []) :
    sortedChoices cs ≠ [] := by
  intro hcontra
  apply h
  have := (sortedChoices_perm cs).length_eq
  rw [hcontra] at this
  exact List.length_eq_zero.mp this.symm

/-- C7: the floor used by the sweep is the declared minimum, else the
declared initial, else the lowest enumerated choice, else 0; the ceiling is
the declared maximum, else the highest enumerated choice, else the declared
initial, else `2^bitLength - 1` when the bit length is positive. -/
theorem floor_ceiling_fallback (s : Signal) :
    (∀ m, s.minimum = some m → SignalChaserManager.min_value s = m) ∧
    (s.minimum = Option.none → ∀ i, s.initial = some i →
        SignalChaserManager.min_value s = i) ∧
    (s.minimum = Option.none → s.initial = Option.none → s.choices ≠ [] →
        SignalChaserManager.min_value s ∈ s.choices ∧
        ∀ c ∈ s.choices, SignalChaserManager.min_value s ≤ c) ∧
    (s.minimum = Option.none → s.initial = Option.none → s.choices = [] →
        SignalChaserManager.min_value s = 0) ∧
    (∀ m, s.maximum = some m → SignalChaserManager.max_value s = m) ∧
    (s.maximum = Option.none → s.choices ≠ [] →
        SignalChaserManager.max_value s ∈ s.choices ∧
        ∀ c ∈ s.choices, c ≤ SignalChaserManager.max_value s) ∧
    (s.maximum = Option.none → s.choices = [] → ∀ i, s.initial = some i →
        SignalChaserManager.max_value s = i) ∧
    (s.maximum = Option.none → s.choices = [] → s.initial = Option.none →
        ∀ l, s.length = some l → 0 < l →
        SignalChaserManager.max_value s = ((2 ^ l : ℕ) : ℚ) - 1) := by
  refine ⟨?_, ?_, ?_, ?_, ?_, ?_, ?_, ?_⟩
  · intro m hm
    simp [SignalChaserManager.min_value, hm]
  · intro hmin i hini
    simp [SignalChaserManager.min_value, hmin, hini]
  · intro hmin hini hch
    have hval : SignalChaserManager.min_value s
        = (sortedChoices s.choices).headD 0 := by
      simp [SignalChaserManager.min_value, hmin, hini,
        List.isEmpty_iff.not.mpr hch]
    have hne : sortedChoices s.choices ≠ [] := sortedChoices_ne_nil hch
    constructor
    · rw [hval]
      exact mem_sortedChoices.mp (headD_mem hne 0)
    · intro c hc
      rw [hval]
      exact headD_le_of_sorted (sortedChoices_sorted s.choices)
        (mem_sortedChoices.mpr hc) 0
  · intro hmin hini hch
    simp [SignalChaserManager.min_value, hmin, hini, hch]
  · intro m hm
    simp [SignalChaserManager.max_value, hm]
  · intro hmax hch
    have hval : SignalChaserManager.max_value s
        = (sortedChoices s.choices).getLastD 1 := by
      simp [SignalChaserManager.max_value, hmax,
        List.isEmpty_iff.not.mpr hch]
    have hne : sortedChoices s.choices ≠ [] := sortedChoices_ne_nil hch
    constructor
    · rw [hval]
      exact mem_sortedChoices.mp (getLastD_mem hne 1)
    · intro c hc
      rw [hval]
      exact le_getLastD_of_sorted (sortedChoices_sorted s.choices)
        (mem_sortedChoices.mpr hc) 1
  · intro hmax hch i hini
    simp [SignalChaserManager.max_value, hmax, hch, hini]
  · intro hmax hch hini l hl hpos
    simp [SignalChaserManager.max_value, hmax, hch, hini, hl, hpos]

/-- A choices-only signal used to instantiate the fallback theorem. -/
def sigC : Signal :=
  { name := "C", minimum := Option.none, maximum := Option.none,
    initial := Option.none, choices := [3, 1, 2], length := some 2 }

/-- A bare signal with only a bit length. -/
def sigD : Signal :=
  { name := "D", minimum := Option.none, maximum := Option.none,
    initial := Option.none, choices := [], length := some 4 }

/-- C7 witness: the choices fallback picks a lowest and a highest enumerated
choice, and the bare signal ceiling is `2^4 - 1`. -/
theorem floor_ceiling_fallback_witness :
    SignalChaserManager.min_value sigC ∈ sigC.choices ∧
    SignalChaserManager.max_value sigC ∈ sigC.choices ∧
    SignalChaserManager.min_value sigC ≤ 1 ∧
    3 ≤ SignalChaserManager.max_value sigC ∧
    SignalChaserManager.max_value sigD = 15 := by
  have h := floor_ceiling_fallback sigC
  have hD := floor_ceiling_fallback sigD
  have hmin := h.2.2.1 rfl rfl (by simp [sigC])
  have hmax := h.2.2.2.2.2.1 rfl (by simp [sigC])
  have hDmax := hD.2.2.2.2.2.2.2 rfl rfl rfl 4 rfl (by norm_num)
  refine ⟨hmin.1, hmax.1, hmin.2 1 (by simp [sigC]), hmax.2 3 (by simp [sigC]), ?_⟩
  rw [hDmax]
  norm_num

/-! ## Task registry start/stop (`FaultInjectionManager`, `SignalChaserManager`)

Both managers validate parameters (`interval <= 0`, and for fault tests
`count <= 0`) before checking whether the key is already registered; the key
check precedes message resolution and the transport-configured check.  The
registry is the list of task keys. -/

/-- The error taxonomy of the start/stop operations. -/
inductive TaskError where
  | invalidParameter
  | alreadyRunning
  | notFound
  | noSignals
  | notReady
  | notRunning
deriving Repr, DecidableEq

/-- `FaultInjectionManager.start`: interval validation, then count
validation, then the registry-key conflict check, then message resolution,
then the transport status check; on success the key is registered.
`resolveOk` tells whether `get_message_by_name` succeeds and `configured`
is the transport's configured flag. -/
def FaultInjectionManager.start (resolveOk configured : Bool)
    (reg : List String) (message_name : String) (interval_seconds : ℚ)
    (count : ℤ) : List String × Except TaskError Unit :=
  if interval_seconds ≤ 0 then (reg, Except.error TaskError.invalidParameter)
  else if count ≤ 0 then (reg, Except.error TaskError.invalidParameter)
  else if message_name ∈ reg then (reg, Except.error TaskError.alreadyRunning)
  else if ¬ resolveOk then (reg, Except.error TaskError.notFound)
  else if ¬ configured then (reg, Except.error TaskError.notReady)
  else (reg ++ [message_name], Except.ok ())

/-- `FaultInjectionManager.stop`: fails `NotRunning` when the key is absent,
otherwise removes it. -/
def FaultInjectionManager.stop (reg : List String) (message_name : String) :
    List String × Except TaskError Unit :=
  if message_name ∈ reg then (reg.erase message_name, Except.ok ())
  else (reg, Except.error TaskError.notRunning)

inductive ChaserMode where
  | signals
  | codes
deriving Repr, DecidableEq

/-- `SignalChaserManager.start`: interval validation, then the registry-key
conflict check, then the mode dispatch.  `signalNames` are the names of the
message's signals (used by the signals mode and the decimal target check);
`codes` are the submitted code values with `Option.none` for Python `None`
entries. -/
def SignalChaserManager.start (resolveOk : Bool) (signalNames : List String)
    (configured : Bool) (reg : List String) (message_name : String)
    (interval_seconds : ℚ) (mode : ChaserMode)
    (codes : Option (List (Option ℤ))) (sourceIsDecimal : Bool)
    (target_signal : Option String) : List String × Except TaskError Unit :=
  if interval_seconds ≤ 0 then (reg, Except.error TaskError.invalidParameter)
  else if message_name ∈ reg then (reg, Except.error TaskError.alreadyRunning)
  else
    match mode with
    | ChaserMode.signals =>
      if ¬ resolveOk then (reg, Except.error TaskError.notFound)
      else if signalNames = [] then (reg, Except.error TaskError.noSignals)
      else if ¬ configured then (reg, Except.error TaskError.notReady)
      else (reg ++ [message_name], Except.ok ())
    | ChaserMode.codes =>
      let cs := codes.getD []
      if cs = [] then (reg, Except.error TaskError.invalidParameter)
      else if sourceIsDecimal ∧ target_signal.getD "" ≠ "" then
        if ¬ resolveOk then (reg, Except.error TaskError.notFound)
        else if target_signal.getD "" ∉ signalNames then
          (reg, Except.error TaskError.notFound)
        else if ¬ configured then (reg, Except.error TaskError.notReady)
        else if cs.length > 4096 then (reg, Except.error TaskError.invalidParameter)
        else if cs.filterMap id = [] then (reg, Except.error TaskError.invalidParameter)
        else (reg ++ [message_name], Except.ok ())
      else
        if ¬ resolveOk then (reg, Except.error TaskError.notFound)
        else if ¬ configured then (reg, Except.error TaskError.notReady)
        else if cs.length > 4096 then (reg, Except.error TaskError.invalidParameter)
        else if cs.filterMap id = [] then (reg, Except.error TaskError.invalidParameter)
        else (reg ++ [message_name], Except.ok ())

/-- `SignalChaserManager.stop`: fails `NotRunning` when the key is absent,
otherwise removes it. -/
def SignalChaserManager.stop (reg : List String) (message_name : String) :
    List String × Except TaskError Unit :=
  if message_name ∈ reg then (reg.erase message_name, Except.ok ())
  else (reg, Except.error TaskError.notRunning)

/-- C5 counterexample: with the key already registered but a non-positive
interval, `FaultInjectionManager.start` fails with the parameter-validation
error, not with `AlreadyRunning` as the claim states. -/
theorem registry_conflict_counterexample :
    (FaultInjectionManager.start true true ["M"] "M" 0 1).2
        = Except.error TaskError.invalidParameter ∧
    (FaultInjectionManager.start true true ["M"] "M" 0 1).2
        ≠ Except.error TaskError.alreadyRunning := by
  have h : (FaultInjectionManager.start true true ["M"] "M" 0 1).2
      = Except.error TaskError.invalidParameter := by
    simp [FaultInjectionManager.start]
  refine ⟨h, ?_⟩
  rw [h]
  intro hcontra
  exact absurd (Except.error.inj hcontra) (by decide)

/-- C5 amended: a start request for an already-registered key fails with
`AlreadyRunning` and leaves the registry unchanged provided the parameters
pass validation (positive interval, and positive count for a fault test);
with a non-positive interval or count the request fails with the
parameter-validation error instead, also leaving the registry unchanged; a
stop request for an absent key fails with `NotRunning` and leaves the
registry unchanged. -/
theorem registry_conflict_amended :
    (∀ (resolveOk configured : Bool) (reg : List String) (key : String)
        (interval : ℚ) (count : ℤ), key ∈ reg → 0 < interval → 0 < count →
        FaultInjectionManager.start resolveOk configured reg key interval count
          = (reg, Except.error TaskError.alreadyRunning)) ∧
    (∀ (resolveOk configured : Bool) (reg : List String) (key : String)
        (interval : ℚ) (count : ℤ), interval ≤ 0 →
        FaultInjectionManager.start resolveOk configured reg key interval count
          = (reg, Except.error TaskError.invalidParameter)) ∧
    (∀ (resolveOk configured : Bool) (reg : List String) (key : String)
        (interval : ℚ) (count : ℤ), 0 < interval → count ≤ 0 →
        FaultInjectionManager.start resolveOk configured reg key interval count
          = (reg, Except.error TaskError.invalidParameter)) ∧
    (∀ (reg : List String) (key : String), key ∉ reg →
        FaultInjectionManager.stop reg key
          = (reg, Except.error TaskError.notRunning)) ∧
    (∀ (resolveOk : Bool) (signalNames : List String) (configured : Bool)
        (reg : List String) (key : String) (interval : ℚ) (mode : ChaserMode)
        (codes : Option (List (Option ℤ))) (sourceIsDecimal : Bool)
        (target : Option String), key ∈ reg → 0 < interval →
        SignalChaserManager.start resolveOk signalNames configured reg key
            interval mode codes sourceIsDecimal target
          = (reg, Except.error TaskError.alreadyRunning)) ∧
    (∀ (resolveOk : Bool) (signalNames : List String) (configured : Bool)
        (reg : List String) (key : String) (interval : ℚ) (mode : ChaserMode)
        (codes : Option (List (Option ℤ))) (sourceIsDecimal : Bool)
        (target : Option String), interval ≤ 0 →
        SignalChaserManager.start resolveOk signalNames configured reg key
            interval mode codes sourceIsDecimal target
          = (reg, Except.error TaskError.invalidParameter)) ∧
    (∀ (reg : List String) (key : String), key ∉ reg →
        SignalChaserManager.stop reg key
          = (reg, Except.error TaskError.notRunning)) := by
  refine ⟨?_, ?_, ?_, ?_, ?_, ?_, ?_⟩
  · intro resolveOk configured reg key interval count hkey hint hcnt
    simp [FaultInjectionManager.start, not_le.mpr hint, not_le.mpr hcnt, hkey]
  · intro resolveOk configured reg key interval count hint
    simp [FaultInjectionManager.start, hint]
  · intro resolveOk configured reg key interval count hint hcnt
    simp [FaultInjectionManager.start, not_le.mpr hint, hcnt]
  · intro reg key hkey
    simp [FaultInjectionManager.stop, hkey]
  · intro resolveOk signalNames configured reg key interval mode codes
      sourceIsDecimal target hkey hint
    simp [SignalChaserManager.start, not_le.mpr hint, hkey]
  · intro resolveOk signalNames configured reg key interval mode codes
      sourceIsDecimal target hint
    simp [SignalChaserManager.start, hint]
  · intro reg key hkey
    simp [SignalChaserManager.stop, hkey]

/-- C5 witness: the amended behavior at concrete inputs. -/
theorem registry_conflict_amended_witness :
    FaultInjectionManager.start true true ["M"] "M" 1 1
        = (["M"], Except.error TaskError.alreadyRunning) ∧
    FaultInjectionManager.stop ["M"] "X"
        = (["M"], Except.error TaskError.notRunning) ∧
    SignalChaserManager.start true ["S"] true ["M"] "M" 1 ChaserMode.signals
        Option.none false Option.none
        = (["M"], Except.error TaskError.alreadyRunning) ∧
    SignalChaserManager.stop ["M"] "X"
        = (["M"], Except.error TaskError.notRunning) := by
  have h := registry_conflict_amended
  refine ⟨h.1 true true ["M"] "M" 1 1 (by simp) (by norm_num) (by norm_num),
    h.2.2.2.1 ["M"] "X" (by simp),
    h.2.2.2.2.1 true ["S"] true ["M"] "M" 1 ChaserMode.signals Option.none
      false Option.none (by simp) (by norm_num),
    h.2.2.2.2.2.2 ["M"] "X" (by simp)⟩

/-! ## Event publishing (`MessageBroadcaster.send_threadsafe`)

`set_loop` creates the queue as `asyncio.Queue()`, i.e. with the default
`maxsize = 0`, which asyncio treats as unbounded: `put_nowait` then never
raises `QueueFull`.  The `except QueueFull` branch of `send_threadsafe`
(drop the newest payload, queue unchanged) is therefore unreachable. -/

/-- `asyncio.Queue.full()`: `False` whenever `maxsize <= 0` (unbounded),
otherwise `qsize() >= maxsize`. -/
def queueFull {α : Type} (maxsize : Nat) (q : List α) : Bool :=
  if maxsize = 0 then false else decide (maxsize ≤ q.length)

/-- `asyncio.Queue.put_nowait`: raises `QueueFull` (here `Option.none`) when
the queue is full, otherwise appends the item. -/
def put_nowait {α : Type} (maxsize : Nat) (q : List α) (x : α) :
    Option (List α) :=
  if queueFull maxsize q then Option.none else some (q ++ [x])

/-- The maxsize the broadcaster actually uses: `asyncio.Queue()` default. -/
def broadcasterQueueMaxsize : Nat := 0

/-- `MessageBroadcaster.send_threadsafe` against a queue of the given
maxsize: no queue set means the payload is dropped; a `QueueFull` from
`put_nowait` is caught, dropping the newest payload and leaving the queue
unchanged. -/
def MessageBroadcaster.send_threadsafe_at {α : Type} (maxsize : Nat)
    (s : Option (List α)) (x : α) : Option (List α) :=
  match s with
  | Option.none => Option.none
  | some q =>
    match put_nowait maxsize q x with
    | some q2 => some q2
    | Option.none => some q

/-- `MessageBroadcaster.send_threadsafe` as deployed, with the queue that
`set_loop` creates. -/
def MessageBroadcaster.send_threadsafe {α : Type} (s : Option (List α))
    (x : α) : Option (List α) :=
  MessageBroadcaster.send_threadsafe_at broadcasterQueueMaxsize s x

/-- Queue states reachable from the freshly created empty queue through
publishes and flush-loop drains. -/
inductive QueueReachable : List ℕ → Prop where
  | init : QueueReachable []
  | publish (q : List ℕ) (x : ℕ) (q2 : List ℕ) :
      QueueReachable q →
      MessageBroadcaster.send_threadsafe (some q) x = some q2 →
      QueueReachable q2
  | drain (q : List ℕ) : QueueReachable q → QueueReachable []

theorem send_threadsafe_appends {α : Type} (q : List α) (x : α) :
    MessageBroadcaster.send_threadsafe (some q) x = some (q ++ [x]) := by
  simp [MessageBroadcaster.send_threadsafe,
    MessageBroadcaster.send_threadsafe_at, put_nowait, queueFull,
    broadcasterQueueMaxsize]

theorem queueReachable_replicate (n : ℕ) :
    QueueReachable (List.replicate n 0) := by
  induction n with
  | zero => exact QueueReachable.init
  | succ n ih =>
    have hstep := send_threadsafe_appends (List.replicate n 0) 0
    have hrep : List.replicate (n + 1) (0 : ℕ) = List.replicate n 0 ++ [0] := by
      simp [List.replicate_succ']
    rw [← hrep] at hstep
    exact QueueReachable.publish _ 0 _ ih hstep

/-- C8 counterexample: the claim asserts a finite bound on the number of
queued events over all reachable queue states, but the queue the code
creates is unbounded, so no such bound exists. -/
theorem publish_bounded_counterexample :
    ¬ ∃ B : ℕ, ∀ q : List ℕ, QueueReachable q → q.length ≤ B := by
  rintro ⟨B, hB⟩
  have := hB (List.replicate (B + 1) 0) (queueReachable_replicate (B + 1))
  rw [List.length_replicate] at this
  omega

/-- C8 amended: `publish` is non-blocking and enqueues into the queue that
`set_loop` creates with no maximum size: `put_nowait` always succeeds late
of any queue length, appending the newest event, so reachable queue states
exceed every finite bound; the drop-newest-on-full handler exists but fires
only for a queue with a positive maxsize that is full, which the deployed
queue never is; with no queue set the payload is dropped. -/
theorem publish_unbounded_spec :
    (∀ (q : List ℕ) (x : ℕ),
        MessageBroadcaster.send_threadsafe (some q) x = some (q ++ [x])) ∧
    (∀ x : ℕ, MessageBroadcaster.send_threadsafe Option.none x = Option.none) ∧
    (∀ (q : List ℕ), queueFull broadcasterQueueMaxsize q = false) ∧
    (∀ (maxsize : Nat) (q : List ℕ) (x : ℕ),
        0 < maxsize → maxsize ≤ q.length →
        MessageBroadcaster.send_threadsafe_at maxsize (some q) x = some q) ∧
    (∀ B : ℕ, ∃ q : List ℕ, QueueReachable q ∧ B < q.length) := by
  refine ⟨send_threadsafe_appends, ?_, ?_, ?_, ?_⟩
  · intro x
    rfl
  · intro q
    simp [queueFull, broadcasterQueueMaxsize]
  · intro maxsize q x hpos hfull
    have hf : queueFull maxsize q = true := by
      simp [queueFull, Nat.pos_iff_ne_zero.mp hpos, hfull]
    simp [MessageBroadcaster.send_threadsafe_at, put_nowait, hf]
  · intro B
    exact ⟨List.replicate (B + 1) 0, queueReachable_replicate (B + 1),
      by simp⟩

/-- C8 witness: an overfull bounded queue would drop the newest payload, and
the deployed unbounded queue just appends. -/
theorem publish_unbounded_spec_witness :
    MessageBroadcaster.send_threadsafe (some [7, 8]) 9 = some [7, 8, 9] ∧
    MessageBroadcaster.send_threadsafe_at 2 (some [7, 8]) 9 = some [7, 8] := by
  have h := publish_unbounded_spec
  exact ⟨h.1 [7, 8] 9, h.2.2.2.1 2 [7, 8] 9 (by norm_num) (by simp)⟩

/-! ## Error-code parsing (`_parse_code_value`)

The parser receives dynamic values: `None`, booleans, ints, floats and
strings.  Strings are stripped, inner spaces removed, one `0x`/`0X` prefix
and one `h`/`H` suffix removed, underscores removed, then `int(cleaned, 16)`
is attempted first and `int(cleaned, 10)` only when that fails.  Negative
results are rejected. -/

/-- A Python float as inspected by the parser (`isnan`, `isinf`,
`is_integer`); finite values are exact rationals. -/
inductive PyFloat where
  | nan
  | posInf
  | negInf
  | finite (q : ℚ)
deriving Repr, DecidableEq

/-- The dynamic values the parser may receive. -/
inductive PyValue where
  | pyNone
  | pyBool (b : Bool)
  | pyInt (z : ℤ)
  | pyFloat (f : PyFloat)
  | pyStr (s : String)
deriving Repr, DecidableEq

/-- The parser's `ValueError` cases. -/
inductive CodeParseError where
  | emptyValue
  | invalidType
  | negative
  | invalidNumber
  | unconvertible
deriving Repr, DecidableEq

def hexDigitVal (c : Char) : Option Nat :=
  if '0' ≤ c ∧ c ≤ '9' then some (c.toNat - '0'.toNat)
  else if 'a' ≤ c ∧ c ≤ 'f' then some (c.toNat - 'a'.toNat + 10)
  else if 'A' ≤ c ∧ c ≤ 'F' then some (c.toNat - 'A'.toNat + 10)
  else Option.none

def decDigitVal (c : Char) : Option Nat :=
  if '0' ≤ c ∧ c ≤ '9' then some (c.toNat - '0'.toNat)
  else Option.none

/-- Accumulate digit values left to right, failing on a non-digit. -/
def digitsValueAux (base : Nat) (digitVal : Char → Option Nat) (acc : Nat) :
    List Char → Option Nat
  | [] => some acc
  | c :: rest =>
    match digitVal c with
    | some d => digitsValueAux base digitVal (acc * base + d) rest
    | Option.none => Option.none

/-- Value of a non-empty digit string in the given base. -/
def digitsValue (base : Nat) (digitVal : Char → Option Nat)
    (cs : List Char) : Option Nat :=
  if cs.isEmpty then Option.none else digitsValueAux base digitVal 0 cs

/-- An optional leading sign, as accepted by Python `int(s, base)`. -/
def stripSign (cs : List Char) : ℤ × List Char :=
  match cs with
  | '+' :: r => ((1 : ℤ), r)
  | '-' :: r => ((-1 : ℤ), r)
  | r => ((1 : ℤ), r)

/-- One optional case-insensitive `0x` prefix. -/
def stripHexPrefix (cs : List Char) : List Char :=
  match cs with
  | '0' :: 'x' :: r => r
  | '0' :: 'X' :: r => r
  | r => r

/-- One optional `h`/`H` suffix, as stripped by the parser's cleaner. -/
def stripHexSuffix (cs : List Char) : List Char :=
  match cs.getLast? with
  | some 'h' => cs.dropLast
  | some 'H' => cs.dropLast
  | _ => cs

/-- Python `int(s, 16)` / `int(s, 10)` on the cleaned text: an optional
sign, for base 16 an optional `0x`/`0X` prefix, then one or more digits. -/
def pyIntOfChars (base16 : Bool) (cs : List Char) : Option ℤ :=
  let sr := stripSign cs
  let body := if base16 then stripHexPrefix sr.2 else sr.2
  match digitsValue (if base16 then 16 else 10)
      (if base16 then hexDigitVal else decDigitVal) body with
  | some n => some (sr.1 * (n : ℤ))
  | Option.none => Option.none

/-- `_parse_code_value`. -/
def parse_code_value (raw : PyValue) : Except CodeParseError ℤ :=
  match raw with
  | PyValue.pyNone => Except.error CodeParseError.emptyValue
  | PyValue.pyBool _ => Except.error CodeParseError.invalidType
  | PyValue.pyInt z =>
    if z < 0 then Except.error CodeParseError.negative else Except.ok z
  | PyValue.pyFloat f =>
    match f with
    | PyFloat.nan => Except.error CodeParseError.invalidNumber
    | PyFloat.posInf => Except.error CodeParseError.invalidNumber
    | PyFloat.negInf => Except.error CodeParseError.invalidNumber
    | PyFloat.finite q =>
      if q.den ≠ 1 then Except.error CodeParseError.invalidNumber
      else if q.num < 0 then Except.error CodeParseError.negative
      else Except.ok q.num
  | PyValue.pyStr s =>
    let text := pythonStrip s
    if text = "" then Except.error CodeParseError.emptyValue
    else
      let cleaned0 := text.toList.filter (fun c => c != ' ')
      let cleaned1 := stripHexPrefix cleaned0
      let cleaned2 := stripHexSuffix cleaned1
      let cleaned := cleaned2.filter (fun c => c != '_')
      match pyIntOfChars true cleaned with
      | some v =>
        if v < 0 then Except.error CodeParseError.negative else Except.ok v
      | Option.none =>
        match pyIntOfChars false cleaned with
        | some v =>
          if v < 0 then Except.error CodeParseError.negative else Except.ok v
        | Option.none => Except.error CodeParseError.unconvertible

/-- The base-16 reading of a string of decimal digits. -/
def hexValueOfDigits (cs : List Char) : ℤ :=
  ((cs.foldl (fun a c => a * 16 + (c.toNat - '0'.toNat)) 0 : ℕ) : ℤ)

theorem digit_char_facts {c : Char} (h : '0' ≤ c ∧ c ≤ '9') :
    isPySpace c = false ∧ c ≠ ' ' ∧ c ≠ '+' ∧ c ≠ '-' ∧ c ≠ 'x' ∧ c ≠ 'X' ∧
    c ≠ 'h' ∧ c ≠ 'H' ∧ c ≠ '_' := by
  have hsp : c ≠ ' ' := ne_of_gt (lt_of_lt_of_le (by decide) h.1)
  have htab : c ≠ '\t' := ne_of_gt (lt_of_lt_of_le (by decide) h.1)
  have hnl : c ≠ '\n' := ne_of_gt (lt_of_lt_of_le (by decide) h.1)
  have hcr : c ≠ '\r' := ne_of_gt (lt_of_lt_of_le (by decide) h.1)
  have hvt : c ≠ '\x0b' := ne_of_gt (lt_of_lt_of_le (by decide) h.1)
  have hff : c ≠ '\x0c' := ne_of_gt (lt_of_lt_of_le (by decide) h.1)
  refine ⟨?_, hsp, ne_of_gt (lt_of_lt_of_le (by decide) h.1),
    ne_of_gt (lt_of_lt_of_le (by decide) h.1),
    ne_of_lt (lt_of_le_of_lt h.2 (by decide)),
    ne_of_lt (lt_of_le_of_lt h.2 (by decide)),
    ne_of_lt (lt_of_le_of_lt h.2 (by decide)),
    ne_of_lt (lt_of_le_of_lt h.2 (by decide)),
    ne_of_lt (lt_of_le_of_lt h.2 (by decide))⟩
  simp [isPySpace, hsp, htab, hnl, hcr, hvt, hff]

theorem dropWhile_not_head {cs : List Char}
    (h : ∀ c ∈ cs, isPySpace c = false) :
    cs.dropWhile isPySpace = cs := by
  cases cs with
  | nil => rfl
  | cons c rest => simp [List.dropWhile_cons, h c (List.mem_cons_self c rest)]

theorem pythonStrip_digits {s : String}
    (h : ∀ c ∈ s.toList, '0' ≤ c ∧ c ≤ '9') : pythonStrip s = s := by
  have hns : ∀ c ∈ s.toList, isPySpace c = false :=
    fun c hc => (digit_char_facts (h c hc)).1
  unfold pythonStrip
  rw [dropWhile_not_head hns,
    dropWhile_not_head (fun c hc => hns c (List.mem_reverse.mp hc)),
    List.reverse_reverse]
  cases s
  rfl

theorem mem_of_getLast?_eq {cs : List Char} {a : Char}
    (h : cs.getLast? = some a) : a ∈ cs := by
  have hx : a ∈ cs.getLast? := Option.mem_def.mpr h
  obtain ⟨hne, heq⟩ := List.mem_getLast?_eq_getLast hx
  rw [heq]
  exact List.getLast_mem hne

theorem stripHexPrefix_digits {cs : List Char}
    (h : ∀ c ∈ cs, '0' ≤ c ∧ c ≤ '9') : stripHexPrefix cs = cs := by
  unfold stripHexPrefix
  split
  · exact absurd (h 'x' (by simp)).2 (by decide)
  · exact absurd (h 'X' (by simp)).2 (by decide)
  · rfl

theorem stripHexSuffix_digits {cs : List Char}
    (h : ∀ c ∈ cs, '0' ≤ c ∧ c ≤ '9') : stripHexSuffix cs = cs := by
  unfold stripHexSuffix
  split
  · rename_i heq
    exact absurd (h 'h' (mem_of_getLast?_eq heq)).2 (by decide)
  · rename_i heq
    exact absurd (h 'H' (mem_of_getLast?_eq heq)).2 (by decide)
  · rfl

theorem stripSign_digits {cs : List Char}
    (h : ∀ c ∈ cs, '0' ≤ c ∧ c ≤ '9') : stripSign cs = (1, cs) := by
  unfold stripSign
  split
  · exact absurd (h '+' (by simp)).1 (by decide)
  · exact absurd (h '-' (by simp)).1 (by decide)
  · rfl

theorem digitsValueAux_hex_digits :
    ∀ (cs : List Char), (∀ c ∈ cs, '0' ≤ c ∧ c ≤ '9') → ∀ acc : Nat,
      digitsValueAux 16 hexDigitVal acc cs
        = some (cs.foldl (fun a c => a * 16 + (c.toNat - '0'.toNat)) acc) := by
  intro cs
  induction cs with
  | nil => intro _ acc; rfl
  | cons c rest ih =>
    intro h acc
    have hc := h c (List.mem_cons_self c rest)
    have hdv : hexDigitVal c = some (c.toNat - '0'.toNat) := by
      simp [hexDigitVal, hc]
    simp only [digitsValueAux, hdv, List.foldl_cons]
    exact ih (fun x hx => h x (List.mem_cons_of_mem c hx)) _

/-- On a non-empty string of decimal digits, `int(s, 16)` succeeds with the
base-16 reading. -/
theorem pyIntOfChars_digits {cs : List Char} (hne : cs ≠ [])
    (h : ∀ c ∈ cs, '0' ≤ c ∧ c ≤ '9') :
    pyIntOfChars true cs = some (hexValueOfDigits cs) := by
  unfold pyIntOfChars
  rw [stripSign_digits h]
  simp only [if_pos rfl, if_true]
  rw [stripHexPrefix_digits h, digitsValue, if_neg (by simpa using hne),
    digitsValueAux_hex_digits cs h 0]
  simp [hexValueOfDigits]

/-- C10: a non-empty string of decimal digits is parsed as hexadecimal (so
"10" yields 16); native non-negative ints and integral non-negative floats
are taken at their numeric value; negative ints, negative or non-integral
floats, NaN, infinities and booleans are rejected. -/
theorem hex_first_parsing :
    (∀ s : String, s ≠ "" → (∀ c ∈ s.toList, '0' ≤ c ∧ c ≤ '9') →
        parse_code_value (PyValue.pyStr s)
          = Except.ok (hexValueOfDigits s.toList)) ∧
    parse_code_value (PyValue.pyStr "10") = Except.ok 16 ∧
    (∀ z : ℤ, 0 ≤ z → parse_code_value (PyValue.pyInt z) = Except.ok z) ∧
    (∀ z : ℤ, z < 0 → parse_code_value (PyValue.pyInt z)
        = Except.error CodeParseError.negative) ∧
    (∀ b : Bool, parse_code_value (PyValue.pyBool b)
        = Except.error CodeParseError.invalidType) ∧
    parse_code_value (PyValue.pyFloat PyFloat.nan)
        = Except.error CodeParseError.invalidNumber ∧
    parse_code_value (PyValue.pyFloat PyFloat.posInf)
        = Except.error CodeParseError.invalidNumber ∧
    parse_code_value (PyValue.pyFloat PyFloat.negInf)
        = Except.error CodeParseError.invalidNumber ∧
    (∀ q : ℚ, q.den = 1 → 0 ≤ q.num →
        parse_code_value (PyValue.pyFloat (PyFloat.finite q))
          = Except.ok q.num) ∧
    (∀ q : ℚ, q.den ≠ 1 →
        parse_code_value (PyValue.pyFloat (PyFloat.finite q))
          = Except.error CodeParseError.invalidNumber) ∧
    (∀ q : ℚ, q.den = 1 → q.num < 0 →
        parse_code_value (PyValue.pyFloat (PyFloat.finite q))
          = Except.error CodeParseError.negative) := by
  have hstr : ∀ s : String, s ≠ "" → (∀ c ∈ s.toList, '0' ≤ c ∧ c ≤ '9') →
      parse_code_value (PyValue.pyStr s)
        = Except.ok (hexValueOfDigits s.toList) := by
    intro s hne h
    have hlist : s.toList ≠ [] := by
      intro hcontra
      apply hne
      cases s
      simp_all [String.toList]
    have hf1 : s.toList.filter (fun c => c != ' ') = s.toList :=
      List.filter_eq_self.mpr (fun c hc => by
        simpa [bne_iff_ne] using (digit_char_facts (h c hc)).2.1)
    have hf2 : s.toList.filter (fun c => c != '_') = s.toList :=
      List.filter_eq_self.mpr (fun c hc => by
        simpa [bne_iff_ne] using (digit_char_facts (h c hc)).2.2.2.2.2.2.2.2)
    have hnonneg : 0 ≤ hexValueOfDigits s.toList := Int.ofNat_nonneg _
    simp only [parse_code_value, pythonStrip_digits h, if_neg hne, hf1,
      stripHexPrefix_digits h, stripHexSuffix_digits h, hf2,
      pyIntOfChars_digits hlist h]
    rw [if_neg (not_lt.mpr hnonneg)]
  refine ⟨hstr, ?_, ?_, ?_, ?_, rfl, rfl, rfl, ?_, ?_, ?_⟩
  · have := hstr "10" (by decide) (by decide)
    rw [this]
    congr 1
  · intro z hz
    simp [parse_code_value, not_lt.mpr hz]
  · intro z hz
    simp [parse_code_value, hz]
  · intro b
    rfl
  · intro q hden hnum
    simp [parse_code_value, hden, not_lt.mpr hnum]
  · intro q hden
    simp [parse_code_value, hden]
  · intro q hden hnum
    simp [parse_code_value, hden, hnum]

/-- C10 witness: the decimal-digit string "255" parses to 0x255 = 597, "10"
parses to 16, the int 7 parses to 7, and the float 2.5 is rejected. -/
theorem hex_first_parsing_witness :
    parse_code_value (PyValue.pyStr "255") = Except.ok 597 ∧
    parse_code_value (PyValue.pyStr "10") = Except.ok 16 ∧
    parse_code_value (PyValue.pyInt 7) = Except.ok 7 ∧
    parse_code_value (PyValue.pyFloat (PyFloat.finite (5 / 2)))
      = Except.error CodeParseError.invalidNumber := by
  have h := hex_first_parsing
  refine ⟨?_, h.2.1, h.2.2.1 7 (by norm_num), ?_⟩
  · have := h.1 "255" (by decide) (by decide)
    rw [this]
    congr 1
  · exact h.2.2.2.2.2.2.2.2.2.1 (5 / 2) (by norm_num [Rat.den])

end CanBus
